import Mathlib

set_option maxRecDepth 8000

/-!
Verification development for the search-orchestration core of the
high-scale-search repository.  Each section shallowly embeds one component
of the Go source (query parser, intent classifier, result cache, stream
processor, consumer, retry, slow-query detector) as executable Lean
definitions, and proves the specification claims about them.

Strings handled character by character (the parser) are modelled as
List Char; the embedding models the ASCII fragment of the Go string
functions (strings.ToLower, unicode.IsLetter, ...), which agree with the
Lean Char functions on that range.
-/

namespace Orchestrator

/-- Character class of the Go regexp escape for whitespace (RE2, ASCII):
tab, newline, form feed, carriage return, space. -/
def goRegexSpace (c : Char) : Bool :=
  c = ' ' || c = '\t' || c = '\n' || c = '\x0c' || c = '\r'

/-- ASCII fragment of Go unicode.IsSpace, the predicate used by
strings.TrimSpace and strings.Fields. -/
def goUniSpace (c : Char) : Bool :=
  c = ' ' || c = '\t' || c = '\n' || c = '\x0b' || c = '\x0c' || c = '\r'

/-- Drop leading characters satisfying p. -/
def trimLeft (p : Char → Bool) : List Char → List Char
  | [] => []
  | c :: cs => if p c then trimLeft p cs else c :: cs

/-- Drop trailing characters satisfying p. -/
def trimRight (p : Char → Bool) (cs : List Char) : List Char :=
  (trimLeft p cs.reverse).reverse

/-- Embedding of strings.TrimSpace. -/
def trimSpace (cs : List Char) : List Char :=
  trimRight goUniSpace (trimLeft goUniSpace cs)

/-- Embedding of strings.ToLower on the ASCII range. -/
def lowerChars (cs : List Char) : List Char := cs.map Char.toLower

/-- Tail character of a field name: the character class of letters and
underscore that follows the leading letter in fieldPattern. -/
def fieldTailChar (c : Char) : Bool := c.isAlpha || c = '_'

/-- Attempt to match the body of fieldPattern, the group part
of the parser.go regular expression (leading letter, then at least one
letter or underscore, then a colon, then at least one non-space character),
at the very start of the input; the boundary alternative has already been
handled by the caller.  Returns (field, value, rest) on success.  The
greedy runs need no backtracking: a colon is not a field-tail character
and the value run ends the pattern. -/
def tryFieldAt : List Char → Option (List Char × List Char × List Char)
  | [] => none
  | c :: cs =>
    if c.isAlpha then
      let run := cs.takeWhile fieldTailChar
      if run.length < 1 then none
      else
        match cs.drop run.length with
        | ':' :: afterColon =>
          let v := afterColon.takeWhile (fun d => !goRegexSpace d)
          if v.isEmpty then none
          else some (c :: run, v, afterColon.drop v.length)
        | _ => none
    else none

/-- All non-overlapping matches of fieldPattern, left to right, as Go
FindAllStringSubmatch returns them.  The boundary [caret or space] is the
caret only at position 0 (atStart); the space alternative consumes the
space character as part of the match.  fuel bounds the recursion; every
step consumes at least one character, so the wrapper passes the input
length plus one. -/
def findFieldMatches : Nat → List Char → Bool → List (List Char × List Char)
  | 0, _, _ => []
  | fuel + 1, cs, atStart =>
    match (if atStart then tryFieldAt cs else none) with
    | some (f, v, rest) => (f, v) :: findFieldMatches fuel rest false
    | none =>
      match cs with
      | [] => []
      | c :: cs' =>
        if goRegexSpace c then
          match tryFieldAt cs' with
          | some (f, v, rest) => (f, v) :: findFieldMatches fuel rest false
          | none => findFieldMatches fuel cs' false
        else findFieldMatches fuel cs' false

/-- Matches of fieldPattern over a whole query. -/
def fieldMatches (cs : List Char) : List (List Char × List Char) :=
  findFieldMatches (cs.length + 1) cs true

/-- Excluded scheme-like field names of parser.go. -/
def excludedFields : List (List Char) :=
  ["http".data, "https".data, "ftp".data, "ftps".data, "mailto".data]

/-- Go map assignment on an entry-list representation of a string map:
replace the value when the key is present, append otherwise. -/
def mapInsert (k v : List Char) :
    List (List Char × List Char) → List (List Char × List Char)
  | [] => [(k, v)]
  | (k', v') :: rest =>
    if k' = k then (k, v) :: rest else (k', v') :: mapInsert k v rest

/-- Fold the accepted matches into the Fields map: matched fields whose
lowercase form is an excluded scheme are skipped. -/
def acceptMatches (ms : List (List Char × List Char)) :
    List (List Char × List Char) :=
  ms.foldl
    (fun acc m =>
      if excludedFields.contains (lowerChars m.1) then acc
      else mapInsert m.1 m.2 acc)
    []

/-- Embedding of strings.Replace with empty replacement and count one:
remove the first occurrence of pat, if any. -/
def removeFirst (pat : List Char) : List Char → List Char
  | [] => []
  | c :: cs =>
    if pat.isPrefixOf (c :: cs) then (c :: cs).drop pat.length
    else c :: removeFirst pat cs

/-- The residual query after the Fields-removal loop of Parse, with the
iteration order of the map given explicitly as the entry list order. -/
def residualAfterRemoval (q : List Char)
    (order : List (List Char × List Char)) : List Char :=
  order.foldl (fun acc fv => removeFirst (fv.1 ++ ':' :: fv.2) acc) q

/-- Whether quotePattern (a quote, at least one non-quote character, a
quote) matches somewhere.  State 0: before any quote; state 1: just after
a quote, content still needed; otherwise: content seen, a closing quote
completes a match. -/
def hasQuotedSpan : List Char → Nat → Bool
  | [], _ => false
  | c :: cs, st =>
    if st = 0 then hasQuotedSpan cs (if c = '"' then 1 else 0)
    else if st = 1 then
      (if c = '"' then hasQuotedSpan cs 1 else hasQuotedSpan cs 2)
    else (if c = '"' then true else hasQuotedSpan cs 2)

/-- Collapse runs of regexp whitespace to a single space, the
multiSpacePattern replacement; prevSpace records whether the previous
character was part of a run already replaced. -/
def collapseAux : List Char → Bool → List Char
  | [], _ => []
  | c :: cs, prevSpace =>
    if goRegexSpace c then
      if prevSpace then collapseAux cs true else ' ' :: collapseAux cs true
    else c :: collapseAux cs false

def collapseSpaces (cs : List Char) : List Char := collapseAux cs false

/-- Embedding of strings.Fields: split on whitespace runs, no empty words. -/
def splitWordsAux : List Char → List Char → List (List Char)
  | [], acc => if acc.isEmpty then [] else [acc.reverse]
  | c :: cs, acc =>
    if goUniSpace c then
      if acc.isEmpty then splitWordsAux cs []
      else acc.reverse :: splitWordsAux cs []
    else splitWordsAux cs (c :: acc)

def splitWords (cs : List Char) : List (List Char) := splitWordsAux cs []

/-- Characters kept at word edges by the token-cleaning TrimFunc: letters,
digits, asterisk, question mark (ASCII fragment of the Go predicates). -/
def tokenKeepChar (c : Char) : Bool :=
  c.isAlpha || c.isDigit || c = '*' || c = '?'

def trimTokenChars (cs : List Char) : List Char :=
  trimRight (fun c => !tokenKeepChar c)
    (trimLeft (fun c => !tokenKeepChar c) cs)

/-- Stop-word list of NewQueryParser. -/
def stopWords : List (List Char) :=
  ["the", "a", "an", "and", "or", "but", "in", "on", "at", "to",
   "for", "of", "with", "by", "is", "it", "this", "that", "are", "was",
   "be", "has", "had", "do", "does"].map String.data

/-- ParsedQuery of internal/models, with Fields as an entry list.  The
unused SpellCorrected member is omitted. -/
structure ParsedQuery where
  original : List Char
  normalized : List Char
  tokens : List (List Char)
  fields : List (List Char × List Char)
  hasWildcard : Bool
  hasQuotes : Bool
  isPhrase : Bool
  deriving DecidableEq, Repr

/-- Embedding of QueryParser.Parse (the boundary-anchored parser.go
variant), with the iteration order of the Fields map in the removal loop
passed explicitly: Go iterates a map there, whose order is arbitrary. -/
def ParseWithOrder (raw : String)
    (order : List (List Char × List Char)) : ParsedQuery :=
  let q := trimSpace raw.data
  if q.isEmpty then
    { original := raw.data, normalized := [], tokens := [], fields := [],
      hasWildcard := false, hasQuotes := false, isPhrase := false }
  else
    let fs := acceptMatches (fieldMatches q)
    let q1 := residualAfterRemoval q order
    let hasQ := hasQuotedSpan q1 0
    let hasW := q1.any (fun c => c = '*' || c = '?')
    let norm := trimSpace (collapseSpaces (lowerChars q1))
    let toks := (splitWords norm).filterMap (fun w =>
      let cleaned := trimTokenChars w
      if !cleaned.isEmpty && !stopWords.contains cleaned then some cleaned
      else none)
    { original := raw.data, normalized := norm, tokens := toks, fields := fs,
      hasWildcard := hasW, hasQuotes := hasQ, isPhrase := hasQ }

/-- The accepted Fields entries of a raw query, in textual match order:
the canonical content of the Fields map. -/
def fieldsOf (raw : String) : List (List Char × List Char) :=
  acceptMatches (fieldMatches (trimSpace raw.data))

/-- Parse with the canonical removal order. -/
def Parse (raw : String) : ParsedQuery := ParseWithOrder raw (fieldsOf raw)

/-- Intent of internal/models. -/
inductive Intent
  | fulltext
  | autocomplete
  | analytics
  | faceted
  deriving DecidableEq, Repr

/-- Analytics keyword set shared by both classifier variants (the
substring variant adds two more words, see below). -/
def analyticsKeywords : List (List Char) :=
  ["count", "total", "average", "avg", "sum", "stats", "trending",
   "report", "analytics", "aggregate", "histogram", "breakdown"].map
    String.data

/-- Faceted keyword set of the leading-token classifier variant. -/
def facetedKeywords : List (List Char) :=
  ["filter", "facet", "group"].map String.data

def autocompleteMaxLen : Nat := 3

/-- Shared tail of both classifiers: faceted when some Fields key is a
faceted keyword (the loop body is an existence check, so the map order
does not matter), fulltext otherwise. -/
def classifyFieldsCheck (fks : List (List Char)) (p : ParsedQuery) : Intent :=
  if p.fields.any (fun kv => fks.contains (lowerChars kv.1)) then .faceted
  else .fulltext

/-- Embedding of IntentClassifier.Classify, leading-token variant: a
keyword routes to analytics or faceted only as the first token. -/
def Classify (p : ParsedQuery) : Intent :=
  if p.normalized.length = 0 then .fulltext
  else if p.tokens.length ≤ 1 && p.normalized.length ≤ autocompleteMaxLen then
    .autocomplete
  else
    match p.tokens with
    | lead :: _ =>
      if analyticsKeywords.contains lead then .analytics
      else if facetedKeywords.contains lead then .faceted
      else classifyFieldsCheck facetedKeywords p
    | [] => classifyFieldsCheck facetedKeywords p

/-- Embedding of strings.Contains. -/
def listContains (needle : List Char) : List Char → Bool
  | [] => needle.isEmpty
  | c :: cs => needle.isPrefixOf (c :: cs) || listContains needle cs

/-- Analytics keyword set of the substring classifier variant
(intent.go), which also holds popular and top. -/
def analyticsKeywordsSub : List (List Char) :=
  analyticsKeywords ++ ["popular".data, "top".data]

/-- Faceted keyword set of the substring classifier variant. -/
def facetedKeywordsSub : List (List Char) :=
  ["category", "filter", "facet", "group", "type", "brand", "price",
   "color", "size"].map String.data

/-- Embedding of the other Classify found in the repository (intent.go):
a keyword anywhere in the normalized query, as a substring, routes to
analytics or faceted.  The any-fold over the keyword map is order
independent, so the map iteration is harmless here. -/
def ClassifySub (p : ParsedQuery) : Intent :=
  if p.normalized.length = 0 then .fulltext
  else if p.tokens.length ≤ 1 && p.normalized.length ≤ autocompleteMaxLen then
    .autocomplete
  else
    let lower := lowerChars p.normalized
    if analyticsKeywordsSub.any (fun kw => listContains kw lower) then
      .analytics
    else if p.fields.any
        (fun kv => facetedKeywordsSub.contains (lowerChars kv.1)) then
      .faceted
    else if facetedKeywordsSub.any (fun kw => listContains kw lower) then
      .faceted
    else .fulltext

/-- Every entry of mapInsert k v l is the new pair or an entry of l. -/
theorem mem_mapInsert {e : List Char × List Char} {k v : List Char} :
    ∀ {l : List (List Char × List Char)},
      e ∈ mapInsert k v l → e = (k, v) ∨ e ∈ l := by
  intro l
  induction l with
  | nil =>
    intro h
    simp only [mapInsert, List.mem_singleton] at h
    exact Or.inl h
  | cons hd tl ih =>
    intro h
    obtain ⟨k', v'⟩ := hd
    simp only [mapInsert] at h
    split at h
    · rcases List.mem_cons.mp h with h1 | h1
      · exact Or.inl h1
      · exact Or.inr (List.mem_cons_of_mem _ h1)
    · rcases List.mem_cons.mp h with h1 | h1
      · exact Or.inr (by rw [h1]; exact List.mem_cons_self _ _)
      · rcases ih h1 with h2 | h2
        · exact Or.inl h2
        · exact Or.inr (List.mem_cons_of_mem _ h2)

/-- Shape of a field name matched by tryFieldAt: a leading letter followed
by at least one letter-or-underscore character. -/
def FieldShape (k : List Char) : Prop :=
  ∃ c run, k = c :: run ∧ c.isAlpha = true ∧ run ≠ [] ∧
    ∀ d ∈ run, fieldTailChar d = true

theorem tryFieldAt_shape {cs f v rest : List Char}
    (h : tryFieldAt cs = some (f, v, rest)) : FieldShape f := by
  cases cs with
  | nil => simp [tryFieldAt] at h
  | cons c cs' =>
    simp only [tryFieldAt] at h
    by_cases ha : c.isAlpha = true
    · rw [if_pos ha] at h
      by_cases hlen : (cs'.takeWhile fieldTailChar).length < 1
      · rw [if_pos hlen] at h
        simp at h
      · rw [if_neg hlen] at h
        split at h
        · split at h
          · simp at h
          · simp only [Option.some.injEq, Prod.mk.injEq] at h
            refine ⟨c, cs'.takeWhile fieldTailChar, h.1.symm, ha, ?_, ?_⟩
            · intro hnil
              rw [hnil] at hlen
              exact hlen (by simp)
            · intro d hd
              exact List.mem_takeWhile_imp hd
        · simp at h
    · rw [if_neg ha] at h
      simp at h

/-- Every field matched by findFieldMatches has the matched shape. -/
theorem findFieldMatches_shape :
    ∀ (fuel : Nat) (cs : List Char) (b : Bool) (m : List Char × List Char),
      m ∈ findFieldMatches fuel cs b → FieldShape m.1 := by
  intro fuel
  induction fuel with
  | zero =>
    intro cs b m hm
    simp [findFieldMatches] at hm
  | succ n ih =>
    intro cs b m hm
    simp only [findFieldMatches] at hm
    split at hm
    · rename_i f v rest heq
      have hsome : tryFieldAt cs = some (f, v, rest) := by
        by_cases hb : b = true
        · rwa [if_pos hb] at heq
        · rw [if_neg hb] at heq
          cases heq
      rcases List.mem_cons.mp hm with hm1 | hm1
      · rw [hm1]
        exact tryFieldAt_shape hsome
      · exact ih _ _ _ hm1
    · split at hm
      · simp at hm
      · rename_i c cs'
        split at hm
        · split at hm
          · rename_i f v rest heq
            rcases List.mem_cons.mp hm with hm1 | hm1
            · rw [hm1]
              exact tryFieldAt_shape heq
            · exact ih _ _ _ hm1
          · exact ih _ _ _ hm
        · exact ih _ _ _ hm

/-- Entries of the acceptMatches fold: each carries the shape of some
match and has passed the excluded-scheme filter. -/
theorem acceptFold_shape :
    ∀ (ms acc : List (List Char × List Char)),
      (∀ m ∈ ms, FieldShape m.1) →
      (∀ e ∈ acc,
        FieldShape e.1 ∧ excludedFields.contains (lowerChars e.1) = false) →
      ∀ e ∈ ms.foldl
          (fun acc m =>
            if excludedFields.contains (lowerChars m.1) then acc
            else mapInsert m.1 m.2 acc)
          acc,
        FieldShape e.1 ∧ excludedFields.contains (lowerChars e.1) = false := by
  intro ms
  induction ms with
  | nil =>
    intro acc _ hacc e he
    exact hacc e he
  | cons m ms ih =>
    intro acc h hacc e he
    simp only [List.foldl_cons] at he
    by_cases hex : excludedFields.contains (lowerChars m.1) = true
    · rw [if_pos hex] at he
      exact ih acc (fun m' hm' => h m' (List.mem_cons_of_mem _ hm')) hacc e he
    · rw [if_neg hex] at he
      have hexf : excludedFields.contains (lowerChars m.1) = false := by
        simpa using hex
      refine ih _ (fun m' hm' => h m' (List.mem_cons_of_mem _ hm')) ?_ e he
      intro e' he'
      rcases mem_mapInsert he' with h1 | h1
      · constructor
        · rw [h1]
          exact h m (List.mem_cons_self _ _)
        · rw [h1]
          exact hexf
      · exact hacc e' h1

theorem acceptMatches_shape (ms : List (List Char × List Char))
    (h : ∀ m ∈ ms, FieldShape m.1) :
    ∀ e ∈ acceptMatches ms,
      FieldShape e.1 ∧ excludedFields.contains (lowerChars e.1) = false := by
  intro e he
  exact acceptFold_shape ms [] h (by intro e' he'; simp at he') e he

/-- Claim C9, amended and proved: every field that Parse enters into the
Fields map was matched by the boundary-anchored pattern, so its name has
at least two characters, the first a letter and the rest letters or
underscores, and its lowercase form is never one of the excluded schemes
http, https, ftp, ftps, mailto; URL schemes therefore never appear in the
Fields map.  (The removal of an accepted pair from the residual deletes
the first occurrence of its text, which can fall inside an excluded match;
see the counterexample parse_clips_excluded_url_match.) -/
theorem parse_fields_shape_and_schemes_excluded (raw : String)
    (k v : List Char) (hkv : (k, v) ∈ (Parse raw).fields) :
    FieldShape k ∧ 2 ≤ k.length ∧
      excludedFields.contains (lowerChars k) = false := by
  have hmem : (k, v) ∈ acceptMatches (fieldMatches (trimSpace raw.data)) := by
    simp only [Parse, ParseWithOrder] at hkv
    split at hkv
    · simp at hkv
    · exact hkv
  have hshape :=
    acceptMatches_shape _
      (fun m hm => findFieldMatches_shape _ _ _ m hm) _ hmem
  refine ⟨hshape.1, ?_, hshape.2⟩
  obtain ⟨c, run, hk, _, hrun, _⟩ := hshape.1
  rw [show k = c :: run from hk]
  simp only [List.length_cons]
  have : 1 ≤ run.length := by
    rcases run with _ | ⟨d, ds⟩
    · exact absurd rfl hrun
    · simp
  omega

/-- Witness for parse_fields_shape_and_schemes_excluded at the query
category:electronics laptop with field category. -/
theorem parse_fields_shape_witness :
    FieldShape "category".data ∧ 2 ≤ "category".data.length ∧
      excludedFields.contains (lowerChars "category".data) = false :=
  parse_fields_shape_and_schemes_excluded "category:electronics laptop"
    "category".data "electronics".data (by decide)

/-- Counterexample to claim C9 as stated: on the query
http://abc:de abc:de the pair abc:de is matched and accepted (the URL
match is skipped as excluded), but the removal step deletes the first
occurrence of the text abc:de, which lies inside the excluded URL match;
the residual is http:// abc:de, so the excluded match is not left intact
in the residual. -/
theorem parse_clips_excluded_url_match :
    (Parse "http://abc:de abc:de").fields = [("abc".data, "de".data)] ∧
    (Parse "http://abc:de abc:de").normalized = "http:// abc:de".data ∧
    ¬ ("http://abc:de".data <:+: (Parse "http://abc:de abc:de").normalized) := by
  refine ⟨by decide, by decide, by decide⟩

/-- Claim C1: evaluation of both Classify variants of the repository at
the query popular laptops.  The leading-token variant (and the repository
classifier tests) give fulltext; the substring variant of intent.go gives
analytics, because popular is in its keyword set and is matched as a
substring anywhere in the normalized query, contradicting the
specification and the tests. -/
theorem classify_substring_variant_misroutes_popular_laptops :
    (Parse "popular laptops").tokens = ["popular".data, "laptops".data] ∧
    Classify (Parse "popular laptops") = Intent.fulltext ∧
    ClassifySub (Parse "popular laptops") = Intent.analytics := by
  refine ⟨by decide, by decide, by decide⟩

/-- Claim C10: evaluation of Parse at the query ab:cd:ef cd:ef under two
iteration orders of the Fields map, both permutations of the map content.
Removing the pair cd:ef first clips the text of the pair ab:cd:ef, so the
residual (and with it Normalized and Tokens) depends on the map iteration
order, which Go randomizes: Parse is not deterministic. -/
theorem parse_depends_on_fields_iteration_order :
    fieldsOf "ab:cd:ef cd:ef" =
      [("ab".data, "cd:ef".data), ("cd".data, "ef".data)] ∧
    List.Perm [("cd".data, "ef".data), ("ab".data, "cd:ef".data)]
      (fieldsOf "ab:cd:ef cd:ef") ∧
    (ParseWithOrder "ab:cd:ef cd:ef" (fieldsOf "ab:cd:ef cd:ef")).normalized
      = [] ∧
    (ParseWithOrder "ab:cd:ef cd:ef"
        [("cd".data, "ef".data), ("ab".data, "cd:ef".data)]).normalized
      = "ab: cd:ef".data ∧
    ParseWithOrder "ab:cd:ef cd:ef" (fieldsOf "ab:cd:ef cd:ef")
      ≠ ParseWithOrder "ab:cd:ef cd:ef"
          [("cd".data, "ef".data), ("ab".data, "cd:ef".data)] := by
  refine ⟨by decide, by decide, by decide, by decide, by decide⟩

end Orchestrator

namespace Cache

/-- Reduction to a 32-bit word. -/
def w32 (n : Nat) : Nat := n % 4294967296

/-- Right rotation of a 32-bit word. -/
def rotr (k n : Nat) : Nat := w32 ((n >>> k) ||| (n <<< (32 - k)))

/-- Round constants of SHA-256, in decimal. -/
def shaK : List Nat :=
  [1116352408, 1899447441, 3049323471, 3921009573, 961987163,
   1508970993, 2453635748, 2870763221, 3624381080, 310598401,
   607225278, 1426881987, 1925078388, 2162078206, 2614888103,
   3248222580, 3835390401, 4022224774, 264347078, 604807628,
   770255983, 1249150122, 1555081692, 1996064986, 2554220882,
   2821834349, 2952996808, 3210313671, 3336571891, 3584528711,
   113926993, 338241895, 666307205, 773529912, 1294757372,
   1396182291, 1695183700, 1986661051, 2177026350, 2456956037,
   2730485921, 2820302411, 3259730800, 3345764771, 3516065817,
   3600352804, 4094571909, 275423344, 430227734, 506948616,
   659060556, 883997877, 958139571, 1322822218, 1537002063,
   1747873779, 1955562222, 2024104815, 2227730452, 2361852424,
   2428436474, 2756734187, 3204031479, 3329325298]

/-- Working state and hash value of SHA-256, eight 32-bit words. -/
structure Sha8 where
  a : Nat
  b : Nat
  c : Nat
  d : Nat
  e : Nat
  f : Nat
  g : Nat
  h : Nat
  deriving Repr

def shaInit : Sha8 :=
  ⟨1779033703, 3144134277, 1013904242, 2773480762,
   1359893119, 2600822924, 528734635, 1541459225⟩

/-- Big-endian eight-byte rendering of a length in bits. -/
def beBytes8 (n : Nat) : List Nat :=
  [(n >>> 56) % 256, (n >>> 48) % 256, (n >>> 40) % 256, (n >>> 32) % 256,
   (n >>> 24) % 256, (n >>> 16) % 256, (n >>> 8) % 256, n % 256]

/-- SHA-256 message padding to a multiple of 64 bytes. -/
def padMessage (msg : List Nat) : List Nat :=
  let len := msg.length
  let zeros := (64 - ((len + 9) % 64)) % 64
  msg ++ [0x80] ++ List.replicate zeros 0 ++ beBytes8 (8 * len)

/-- Split into 64-byte chunks; fuel bounds the recursion and the wrapper
passes the list length, of which every step consumes 64. -/
def chunksOf64 : Nat → List Nat → List (List Nat)
  | 0, _ => []
  | _, [] => []
  | fuel + 1, l => l.take 64 :: chunksOf64 fuel (l.drop 64)

/-- Big-endian 4-byte groups to 32-bit words. -/
def bytesToWords : List Nat → List Nat
  | b0 :: b1 :: b2 :: b3 :: rest =>
    (((b0 * 256 + b1) * 256 + b2) * 256 + b3) :: bytesToWords rest
  | _ => []

def smallSigma0 (x : Nat) : Nat := (rotr 7 x) ^^^ (rotr 18 x) ^^^ (x >>> 3)

def smallSigma1 (x : Nat) : Nat := (rotr 17 x) ^^^ (rotr 19 x) ^^^ (x >>> 10)

def bigSigma0 (x : Nat) : Nat := (rotr 2 x) ^^^ (rotr 13 x) ^^^ (rotr 22 x)

def bigSigma1 (x : Nat) : Nat := (rotr 6 x) ^^^ (rotr 11 x) ^^^ (rotr 25 x)

/-- Message-schedule extension: appends one word per fuel step; the
compression calls it with fuel 48 on the 16 chunk words. -/
def extendW : Nat → List Nat → List Nat
  | 0, w => w
  | n + 1, w =>
    let i := w.length
    let x := w32 (smallSigma1 (w.getD (i - 2) 0) + w.getD (i - 7) 0 +
      smallSigma0 (w.getD (i - 15) 0) + w.getD (i - 16) 0)
    extendW n (w ++ [x])

def compressStep (st : Sha8) (wk : Nat × Nat) : Sha8 :=
  let ch := (st.e &&& st.f) ^^^ ((0xffffffff ^^^ st.e) &&& st.g)
  let t1 := w32 (st.h + bigSigma1 st.e + ch + wk.2 + wk.1)
  let maj := (st.a &&& st.b) ^^^ (st.a &&& st.c) ^^^ (st.b &&& st.c)
  let t2 := w32 (bigSigma0 st.a + maj)
  ⟨w32 (t1 + t2), st.a, st.b, st.c, w32 (st.d + t1), st.e, st.f, st.g⟩

def compressChunk (hst : Sha8) (chunk : List Nat) : Sha8 :=
  let w := extendW 48 (bytesToWords chunk)
  let st := (w.zip shaK).foldl compressStep hst
  ⟨w32 (hst.a + st.a), w32 (hst.b + st.b), w32 (hst.c + st.c),
   w32 (hst.d + st.d), w32 (hst.e + st.e), w32 (hst.f + st.f),
   w32 (hst.g + st.g), w32 (hst.h + st.h)⟩

def wordBE (n : Nat) : List Nat :=
  [(n >>> 24) % 256, (n >>> 16) % 256, (n >>> 8) % 256, n % 256]

/-- SHA-256 digest, 32 bytes, of a byte sequence. -/
def sha256 (msg : List Nat) : List Nat :=
  let padded := padMessage msg
  let final := (chunksOf64 padded.length padded).foldl compressChunk shaInit
  wordBE final.a ++ wordBE final.b ++ wordBE final.c ++ wordBE final.d ++
    wordBE final.e ++ wordBE final.f ++ wordBE final.g ++ wordBE final.h

def hexDigit (n : Nat) : Char :=
  if n < 10 then Char.ofNat (48 + n) else Char.ofNat (87 + n)

def byteHex (b : Nat) : List Char := [hexDigit (b / 16), hexDigit (b % 16)]

/-- UTF-8 encoding of one character, the byte sequence Go indexes a
string by. -/
def charUtf8 (c : Char) : List Nat :=
  let n := c.toNat
  if n < 0x80 then [n]
  else if n < 0x800 then
    [0xc0 ||| (n >>> 6), 0x80 ||| (n &&& 0x3f)]
  else if n < 0x10000 then
    [0xe0 ||| (n >>> 12), 0x80 ||| ((n >>> 6) &&& 0x3f), 0x80 ||| (n &&& 0x3f)]
  else
    [0xf0 ||| (n >>> 18), 0x80 ||| ((n >>> 12) &&& 0x3f),
     0x80 ||| ((n >>> 6) &&& 0x3f), 0x80 ||| (n &&& 0x3f)]

def utf8Bytes (s : String) : List Nat := s.data.flatMap charUtf8

/-- Embedding of hashString of redis.go: hex of the first eight bytes of
the SHA-256 digest of the string. -/
def hashString (s : String) : String :=
  ⟨((sha256 (utf8Bytes s)).take 8).flatMap byteHex⟩

/-- SearchRequest of internal/models.  Filter values are modelled by
their fmt %v rendering, the only view the cache key takes of them. -/
structure SearchRequest where
  query : String
  filters : List (String × String)
  page : Int
  pageSize : Int
  sort : String
  region : String
  userID : String
  forceFresh : Bool
  fieldsSel : List String
  requestID : String
  deriving DecidableEq, Repr

def filterKeys (fs : List (String × String)) : List String := fs.map Prod.fst

def filterLookup (fs : List (String × String)) (k : String) : Option String :=
  (fs.find? (fun p => p.1 = k)).map Prod.snd

/-- Embedding of canonicalFilters: sort the keys (sort.Strings is
byte-lexicographic, which agrees with the codepoint order of the Lean
String order on valid UTF-8) and join key=value with commas; the empty
map gives the empty string. -/
def canonicalFilters (fs : List (String × String)) : String :=
  if fs.isEmpty then ""
  else
    let ks := List.insertionSort (· ≤ ·) (filterKeys fs)
    String.intercalate "," (ks.map (fun k => k ++ "=" ++ (filterLookup fs k).getD ""))

/-- Fingerprint preimage of buildSearchKey and buildStaleKey. -/
def searchKeyRaw (r : SearchRequest) : String :=
  r.query ++ ":" ++ canonicalFilters r.filters ++ ":" ++ toString r.page ++
    ":" ++ toString r.pageSize

/-- Embedding of buildSearchKey (the canonicalizing redis.go variant). -/
def buildSearchKey (r : SearchRequest) : String :=
  "sr:" ++ hashString (searchKeyRaw r)

/-- Embedding of buildStaleKey. -/
def buildStaleKey (r : SearchRequest) : String :=
  "sr:stale:" ++ hashString (searchKeyRaw r)

/-- The canonical filter string only depends on the key-value content of
the filter map, not on entry order. -/
theorem canonicalFilters_order_independent
    (f1 f2 : List (String × String))
    (hn1 : (filterKeys f1).Nodup) (hn2 : (filterKeys f2).Nodup)
    (hk12 : ∀ k ∈ filterKeys f1, k ∈ filterKeys f2)
    (hk21 : ∀ k ∈ filterKeys f2, k ∈ filterKeys f1)
    (hv : ∀ k ∈ filterKeys f1, filterLookup f1 k = filterLookup f2 k) :
    canonicalFilters f1 = canonicalFilters f2 := by
  by_cases h1 : f1.isEmpty
  · have h1' : f1 = [] := List.isEmpty_iff.mp h1
    have h2' : f2 = [] := by
      cases f2 with
      | nil => rfl
      | cons e tl =>
        exfalso
        have : e.1 ∈ filterKeys f1 :=
          hk21 e.1 (by simp [filterKeys])
        rw [h1'] at this
        simp [filterKeys] at this
    rw [h1', h2']
  · have h2 : ¬ f2.isEmpty := by
      intro h2
      have h2' : f2 = [] := List.isEmpty_iff.mp h2
      cases hf1 : f1 with
      | nil => exact h1 (by rw [hf1]; rfl)
      | cons e tl =>
        have : e.1 ∈ filterKeys f2 := by
          apply hk12
          rw [hf1]
          simp [filterKeys]
        rw [h2'] at this
        simp [filterKeys] at this
    unfold canonicalFilters
    rw [if_neg (by simpa using h1), if_neg (by simpa using h2)]
    have hperm : (filterKeys f1).Perm (filterKeys f2) :=
      (List.perm_ext_iff_of_nodup hn1 hn2).mpr
        (fun k => ⟨hk12 k, hk21 k⟩)
    have hsorted :
        List.insertionSort (· ≤ ·) (filterKeys f1) =
          List.insertionSort (· ≤ ·) (filterKeys f2) :=
      List.eq_of_perm_of_sorted
        ((List.perm_insertionSort _ _).trans
          (hperm.trans (List.perm_insertionSort _ _).symm))
        (List.sorted_insertionSort _ _) (List.sorted_insertionSort _ _)
    rw [hsorted]
    dsimp only
    congr 1
    apply List.map_congr_left
    intro k hk
    have hk2 : k ∈ filterKeys f2 :=
      ((List.perm_insertionSort (· ≤ ·) (filterKeys f2)).mem_iff).mp hk
    have hk1 : k ∈ filterKeys f1 := hk21 k hk2
    rw [hv k hk1]

/-- Claim C2: the cache fingerprint is order independent over filters.
Two SearchRequests with equal query, equal filter key sets, equal filter
values for every key, equal page and equal page size produce the same
buildSearchKey and the same buildStaleKey, whatever order the filter map
entries carry. -/
theorem buildSearchKey_order_independent (r1 r2 : SearchRequest)
    (hq : r1.query = r2.query)
    (hn1 : (filterKeys r1.filters).Nodup)
    (hn2 : (filterKeys r2.filters).Nodup)
    (hk12 : ∀ k ∈ filterKeys r1.filters, k ∈ filterKeys r2.filters)
    (hk21 : ∀ k ∈ filterKeys r2.filters, k ∈ filterKeys r1.filters)
    (hv : ∀ k ∈ filterKeys r1.filters,
      filterLookup r1.filters k = filterLookup r2.filters k)
    (hp : r1.page = r2.page) (hps : r1.pageSize = r2.pageSize) :
    buildSearchKey r1 = buildSearchKey r2 ∧
      buildStaleKey r1 = buildStaleKey r2 := by
  have hcanon := canonicalFilters_order_independent r1.filters r2.filters
    hn1 hn2 hk12 hk21 hv
  have hraw : searchKeyRaw r1 = searchKeyRaw r2 := by
    unfold searchKeyRaw
    rw [hq, hcanon, hp, hps]
  constructor
  · unfold buildSearchKey
    rw [hraw]
  · unfold buildStaleKey
    rw [hraw]

/-- Witness for buildSearchKey_order_independent: the same two filters
inserted in the two possible orders give the same fresh and stale keys. -/
theorem buildSearchKey_order_independent_witness :
    buildSearchKey
        ⟨"laptop", [("brand", "apple"), ("category", "electronics")],
          0, 20, "", "", "", false, [], ""⟩ =
      buildSearchKey
        ⟨"laptop", [("category", "electronics"), ("brand", "apple")],
          0, 20, "", "", "", false, [], ""⟩ ∧
    buildStaleKey
        ⟨"laptop", [("brand", "apple"), ("category", "electronics")],
          0, 20, "", "", "", false, [], ""⟩ =
      buildStaleKey
        ⟨"laptop", [("category", "electronics"), ("brand", "apple")],
          0, 20, "", "", "", false, [], ""⟩ :=
  buildSearchKey_order_independent _ _ rfl (by decide) (by decide)
    (by decide) (by decide) (by decide) rfl rfl

/-- TTL configuration of the cache (config.CacheTTLConfig), durations as
plain numbers. -/
structure CacheTTLConfig where
  autocomplete : Nat
  trending : Nat
  searchResults : Nat
  facetCounts : Nat
  staleFallback : Nat
  deriving DecidableEq, Repr

/-- Embedding of ttlForIntent. -/
def ttlForIntent (ttl : CacheTTLConfig) (intent : String) : Nat :=
  if intent = "autocomplete" then ttl.autocomplete
  else if intent = "analytics" then ttl.facetCounts
  else if intent = "faceted" then ttl.facetCounts
  else ttl.searchResults

/-- Observable outcome of SetSearchResults: the sequence of attempted
cache writes (key, serialized response, ttl) and the returned error. -/
structure SetOutcome where
  writes : List (String × String × Nat)
  ret : Option String
  deriving DecidableEq, Repr

/-- Embedding of SetSearchResults.  The two setResponse calls are
modelled by their outcome oracles freshErr and staleErr; the fresh write
is attempted first, the stale write only when the fresh one returned nil,
and the function returns the error of the last call it made. -/
def SetSearchResults (ttl : CacheTTLConfig) (req : SearchRequest)
    (intent resp : String) (freshErr staleErr : Option String) : SetOutcome :=
  let key := buildSearchKey req
  let t := ttlForIntent ttl intent
  match freshErr with
  | some e => ⟨[(key, resp, t)], some e⟩
  | none =>
    ⟨[(key, resp, t), (buildStaleKey req, resp, ttl.staleFallback)], staleErr⟩

/-- Counterexample to claim C6 as stated: when the fresh write succeeds
and the stale write fails, SetSearchResults returns the stale-write error
to its caller instead of logging and ignoring it (the function contains
no logging; the orchestrator is the place that logs the returned error). -/
theorem setSearchResults_surfaces_stale_error :
    (SetSearchResults ⟨600, 60, 120, 300, 3600⟩
        ⟨"laptop", [], 0, 20, "", "", "", false, [], ""⟩
        "fulltext" "respA" none (some "stale write failed")).ret =
      some "stale write failed" ∧
    (SetSearchResults ⟨600, 60, 120, 300, 3600⟩
        ⟨"laptop", [], 0, 20, "", "", "", false, [], ""⟩
        "fulltext" "respA" none (some "stale write failed")).writes.length
      = 2 :=
  ⟨rfl, rfl⟩

/-- Claim C6, amended and proved: SetSearchResults attempts the fresh key
first; when the fresh write succeeds it writes the stale key second with
the same response value and returns the stale outcome to its caller (the
orchestrator logs that returned error and continues, so the request does
not fail); when the fresh write fails it stops before the stale write and
returns the fresh error. -/
theorem setSearchResults_order_and_error_propagation
    (ttl : CacheTTLConfig) (req : SearchRequest) (intent resp : String)
    (freshErr staleErr : Option String) :
    (SetSearchResults ttl req intent resp freshErr staleErr).writes.head? =
        some (buildSearchKey req, resp, ttlForIntent ttl intent) ∧
      (freshErr = none →
        SetSearchResults ttl req intent resp freshErr staleErr =
          ⟨[(buildSearchKey req, resp, ttlForIntent ttl intent),
            (buildStaleKey req, resp, ttl.staleFallback)], staleErr⟩) ∧
      (∀ e, freshErr = some e →
        SetSearchResults ttl req intent resp freshErr staleErr =
          ⟨[(buildSearchKey req, resp, ttlForIntent ttl intent)], some e⟩) := by
  cases freshErr with
  | none =>
    refine ⟨rfl, fun _ => rfl, fun e he => ?_⟩
    cases he
  | some e0 =>
    refine ⟨rfl, fun h => ?_, fun e he => ?_⟩
    · cases h
    · cases he
      rfl

end Cache

namespace Indexing

/-- Scalar values of a Go map from string to any, as far as the stream
processor inspects them (string type assertions). -/
inductive GoVal
  | str (s : String)
  | num (n : Int)
  | boolean (b : Bool)
  deriving DecidableEq, Repr

/-- ChangeEvent of internal/models, with the document as an entry list. -/
structure ChangeEvent where
  type : String
  documentID : String
  collection : String
  document : List (String × GoVal)
  region : String
  timestamp : Int
  version : Int
  deriving DecidableEq, Repr

def docLookup (doc : List (String × GoVal)) (k : String) : Option GoVal :=
  (doc.find? (fun p => p.1 = k)).map Prod.snd

/-- The string type assertion on the document category field:
some c exactly when the document carries a string category. -/
def docCategory (doc : List (String × GoVal)) : Option String :=
  match docLookup doc "category" with
  | some (.str s) => some s
  | _ => none

/-- Embedding of buildInvalidationKeys, the targeted exact-key variant:
trend key for a non-empty region, then facet-count key for a string
category. -/
def buildInvalidationKeys (e : ChangeEvent) : List String :=
  (if e.region ≠ "" then ["trend:" ++ e.region] else []) ++
    (match docCategory e.document with
     | some c => ["fc:" ++ c]
     | none => [])

theorem trend_ne_fc (r c : String) : "trend:" ++ r ≠ "fc:" ++ c := by
  intro h
  have hd := congrArg String.data h
  rw [String.data_append, String.data_append] at hd
  have h1 : ("trend:" : String).data = ['t', 'r', 'e', 'n', 'd', ':'] := rfl
  have h2 : ("fc:" : String).data = ['f', 'c', ':'] := rfl
  rw [h1, h2] at hd
  simp only [List.cons_append, List.nil_append] at hd
  injection hd with hc _
  exact absurd hc (by decide)

theorem sr_star_ne_trend (r : String) : ("sr:*" : String) ≠ "trend:" ++ r := by
  intro h
  have hd := congrArg String.data h
  rw [String.data_append] at hd
  have h1 : ("sr:*" : String).data = ['s', 'r', ':', '*'] := rfl
  have h2 : ("trend:" : String).data = ['t', 'r', 'e', 'n', 'd', ':'] := rfl
  rw [h1, h2] at hd
  simp only [List.cons_append, List.nil_append] at hd
  injection hd with hc _
  exact absurd hc (by decide)

theorem sr_star_ne_fc (c : String) : ("sr:*" : String) ≠ "fc:" ++ c := by
  intro h
  have hd := congrArg String.data h
  rw [String.data_append] at hd
  have h1 : ("sr:*" : String).data = ['s', 'r', ':', '*'] := rfl
  have h2 : ("fc:" : String).data = ['f', 'c', ':'] := rfl
  rw [h1, h2] at hd
  simp only [List.cons_append, List.nil_append] at hd
  injection hd with hc _
  exact absurd hc (by decide)

theorem fc_inj {c1 c2 : String} (h : "fc:" ++ c1 = "fc:" ++ c2) : c1 = c2 := by
  have hd := congrArg String.data h
  rw [String.data_append, String.data_append] at hd
  have h2 : ("fc:" : String).data = ['f', 'c', ':'] := rfl
  rw [h2] at hd
  simp only [List.cons_append, List.nil_append] at hd
  injection hd with _ hd
  injection hd with _ hd
  injection hd with _ hd
  exact congrArg String.mk hd

theorem star_not_mem_trend {r : String} (hr : '*' ∉ r.data) :
    '*' ∉ ("trend:" ++ r).data := by
  rw [String.data_append]
  intro h
  rcases List.mem_append.mp h with h | h
  · revert h
    decide
  · exact hr h

theorem star_not_mem_fc {c : String} (hc : '*' ∉ c.data) :
    '*' ∉ ("fc:" ++ c).data := by
  rw [String.data_append]
  intro h
  rcases List.mem_append.mp h with h | h
  · revert h
    decide
  · exact hc h

/-- Counterexample to claim C5 as stated: an event whose region is the
string consisting of the asterisk character makes the targeted variant
return the key trend:*, a key containing an asterisk; the no-asterisk
guarantee holds only when region and category are themselves free of
asterisks. -/
theorem buildInvalidationKeys_star_region :
    buildInvalidationKeys ⟨"UPDATE", "d1", "products", [], "*", 0, 1⟩ =
      ["trend:*"] ∧ '*' ∈ ("trend:*" : String).data := by
  refine ⟨by decide, by decide⟩

/-- Claim C5, amended and proved: buildInvalidationKeys returns only the
exact keys of the two targeted forms - trend:region exactly when the
event region is non-empty, and fc:category exactly when the document
carries a string category; it never returns the wildcard key sr:* of the
superseded SCAN-based variant, and when neither the region nor the
category contains an asterisk no returned key contains one. -/
theorem buildInvalidationKeys_exact_keys (e : ChangeEvent) :
    (∀ k ∈ buildInvalidationKeys e,
      k = "trend:" ++ e.region ∨
        ∃ c, docCategory e.document = some c ∧ k = "fc:" ++ c) ∧
    (("trend:" ++ e.region) ∈ buildInvalidationKeys e ↔ e.region ≠ "") ∧
    (∀ c, ("fc:" ++ c) ∈ buildInvalidationKeys e ↔
      docCategory e.document = some c) ∧
    ("sr:*" : String) ∉ buildInvalidationKeys e ∧
    ('*' ∉ e.region.data →
      (∀ c, docCategory e.document = some c → '*' ∉ c.data) →
      ∀ k ∈ buildInvalidationKeys e, '*' ∉ k.data) := by
  unfold buildInvalidationKeys
  by_cases hr : e.region = ""
  · rw [if_neg (by simp [hr])]
    cases hcat : docCategory e.document with
    | none =>
      refine ⟨by simp, by simp [hr], by simp, by simp, by simp⟩
    | some c0 =>
      refine ⟨?_, ?_, ?_, ?_, ?_⟩
      · intro k hk
        simp only [List.nil_append, List.mem_singleton] at hk
        exact Or.inr ⟨c0, rfl, hk⟩
      · simp only [List.nil_append, List.mem_singleton]
        constructor
        · intro h
          exact absurd h (trend_ne_fc _ _)
        · intro h
          exact absurd hr h
      · intro c
        simp only [List.nil_append, List.mem_singleton]
        constructor
        · intro h
          rw [fc_inj h.symm]
        · intro h
          rw [Option.some_inj.mp h]
      · simp only [List.nil_append, List.mem_singleton]
        exact sr_star_ne_fc c0
      · intro _ hstar k hk
        simp only [List.nil_append, List.mem_singleton] at hk
        rw [hk]
        exact star_not_mem_fc (hstar c0 rfl)
  · rw [if_pos hr]
    cases hcat : docCategory e.document with
    | none =>
      refine ⟨?_, ?_, ?_, ?_, ?_⟩
      · intro k hk
        simp only [List.append_nil, List.mem_singleton] at hk
        exact Or.inl hk
      · simp only [List.append_nil, List.mem_singleton]
        exact ⟨fun _ => hr, fun _ => trivial⟩
      · intro c
        simp only [List.append_nil, List.mem_singleton]
        constructor
        · intro h
          exact absurd h.symm (trend_ne_fc _ _)
        · intro h
          cases h
      · simp only [List.append_nil, List.mem_singleton]
        exact sr_star_ne_trend _
      · intro hstar _ k hk
        simp only [List.append_nil, List.mem_singleton] at hk
        rw [hk]
        exact star_not_mem_trend hstar
    | some c0 =>
      refine ⟨?_, ?_, ?_, ?_, ?_⟩
      · intro k hk
        rcases List.mem_append.mp hk with h | h
        · exact Or.inl (List.mem_singleton.mp h)
        · exact Or.inr ⟨c0, rfl, List.mem_singleton.mp h⟩
      · constructor
        · intro _
          exact hr
        · intro _
          exact List.mem_append.mpr (Or.inl (List.mem_singleton.mpr rfl))
      · intro c
        constructor
        · intro h
          rcases List.mem_append.mp h with h | h
          · exact absurd (List.mem_singleton.mp h).symm (trend_ne_fc _ _)
          · rw [fc_inj (List.mem_singleton.mp h).symm]
        · intro h
          rw [Option.some_inj.mp h]
          exact List.mem_append.mpr (Or.inr (List.mem_singleton.mpr rfl))
      · intro h
        rcases List.mem_append.mp h with h | h
        · exact sr_star_ne_trend _ (List.mem_singleton.mp h)
        · exact sr_star_ne_fc _ (List.mem_singleton.mp h)
      · intro hstar hstarc k hk
        rcases List.mem_append.mp hk with h | h
        · rw [List.mem_singleton.mp h]
          exact star_not_mem_trend hstar
        · rw [List.mem_singleton.mp h]
          exact star_not_mem_fc (hstarc c0 rfl)

/-- IndexAction of internal/models, the element type of the bulk buffer. -/
structure IndexAction where
  action : String
  index : String
  id : String
  routing : String
  body : List (String × GoVal)
  timestamp : Int
  deriving DecidableEq, Repr

/-- The maxBufferSize constant of the bounded stream processor. -/
def maxBufferSize : Nat := 50000

/-- Requeue of a failed batch in flush: prepend the batch to the live
buffer and, when the combined length exceeds maxBufferSize, drop the
excess from the front (the oldest entries). -/
def failRequeue (batch live : List IndexAction) : List IndexAction :=
  let combined := batch ++ live
  if combined.length > maxBufferSize then
    combined.drop (combined.length - maxBufferSize)
  else combined

/-- One flush of the buffer: nothing on an empty buffer, empty buffer
after a successful bulk request, requeue of the snapshot on a failed one
(sequential interleaving: the live buffer is empty while the snapshot is
in flight). -/
def flushStep (ok : Bool) (buf : List IndexAction) : List IndexAction :=
  if buf.isEmpty then buf
  else if ok then []
  else failRequeue buf []

/-- HandleEvent on the buffer: append the action, then flush immediately
when the buffer has reached bulkSize, with the given bulk outcome. -/
def handleStep (bulkSize : Nat) (a : IndexAction) (ok : Bool)
    (buf : List IndexAction) : List IndexAction :=
  let b1 := buf ++ [a]
  if bulkSize ≤ b1.length then flushStep ok b1 else b1

/-- The operations that touch the buffer: HandleEvent with the outcome of
the flush it may trigger, the periodic flush of flushLoop, and the final
flush of Stop. -/
inductive ProcOp where
  | handleEvent (a : IndexAction) (flushOk : Bool)
  | periodicFlush (ok : Bool)
  | stopFlush (ok : Bool)
  deriving DecidableEq, Repr

def applyOp (bulkSize : Nat) (buf : List IndexAction) : ProcOp → List IndexAction
  | .handleEvent a ok => handleStep bulkSize a ok buf
  | .periodicFlush ok => flushStep ok buf
  | .stopFlush ok => flushStep ok buf

/-- The live buffer after a sequence of operations, from the empty
buffer NewStreamProcessor starts with. -/
def runOps (bulkSize : Nat) (ops : List ProcOp) : List IndexAction :=
  ops.foldl (applyOp bulkSize) []

theorem failRequeue_length_le (batch live : List IndexAction) :
    (failRequeue batch live).length ≤ maxBufferSize := by
  unfold failRequeue
  dsimp only
  split
  · rw [List.length_drop]
    omega
  · omega

theorem flushStep_length_le (ok : Bool) (buf : List IndexAction) :
    (flushStep ok buf).length ≤ maxBufferSize := by
  unfold flushStep
  split
  · rename_i hempty
    rw [List.isEmpty_iff.mp hempty]
    simp
  · split
    · simp
    · exact failRequeue_length_le buf []

theorem applyOp_length_le (bulkSize : Nat) (hbs : bulkSize ≤ maxBufferSize)
    (buf : List IndexAction) (op : ProcOp) :
    (applyOp bulkSize buf op).length ≤ maxBufferSize := by
  cases op with
  | handleEvent a ok =>
    unfold applyOp handleStep
    dsimp only
    split
    · exact flushStep_length_le ok (buf ++ [a])
    · rename_i hlt
      omega
  | periodicFlush ok => exact flushStep_length_le ok buf
  | stopFlush ok => exact flushStep_length_le ok buf

/-- Claim C3: over any sequence of HandleEvent calls and flushes
(size-triggered, periodic, or on Stop), each with any bulk outcome, the
live buffer length never exceeds maxBufferSize (50000), provided the
configured bulkSize does not itself exceed the ceiling (the default 5000
does); and a failed-batch requeue whose combined length would exceed the
ceiling keeps exactly the newest maxBufferSize items - the result is a
suffix of the combined list of that length, so exactly the oldest excess
items are dropped and never the newest. -/
theorem streamProcessor_buffer_bounded (bulkSize : Nat)
    (hbs : bulkSize ≤ maxBufferSize) (ops : List ProcOp) :
    (runOps bulkSize ops).length ≤ maxBufferSize ∧
    ∀ batch live : List IndexAction,
      maxBufferSize < (batch ++ live).length →
        (failRequeue batch live).length = maxBufferSize ∧
        failRequeue batch live <:+ batch ++ live := by
  constructor
  · unfold runOps
    have haux : ∀ (l : List ProcOp) (buf : List IndexAction),
        buf.length ≤ maxBufferSize →
        (l.foldl (applyOp bulkSize) buf).length ≤ maxBufferSize := by
      intro l
      induction l with
      | nil =>
        intro buf hbuf
        exact hbuf
      | cons op rest ih =>
        intro buf hbuf
        exact ih _ (applyOp_length_le bulkSize hbs buf op)
    exact haux ops [] (by simp)
  · intro batch live hlen
    unfold failRequeue
    dsimp only
    rw [if_pos (by omega)]
    constructor
    · rw [List.length_drop]
      omega
    · exact List.drop_suffix _ _

/-- Witness for streamProcessor_buffer_bounded at bulkSize 2 and a short
operation sequence whose bulk requests all fail. -/
theorem streamProcessor_buffer_bounded_witness :
    (runOps 2
        [ProcOp.handleEvent ⟨"index", "idx", "d1", "", [], 0⟩ false,
         ProcOp.handleEvent ⟨"index", "idx", "d2", "", [], 0⟩ false,
         ProcOp.periodicFlush false,
         ProcOp.stopFlush true]).length ≤ maxBufferSize :=
  (streamProcessor_buffer_bounded 2 (by decide) _).1

end Indexing

namespace Kafka

/-- Effects of processMessage the claim observes: handler invocations,
DLQ publishes, offset commits (gauge updates and log lines omitted). -/
inductive MsgEffect
  | handlerCall
  | dlqPublish
  | commitOffset
  deriving DecidableEq, Repr

/-- The retry loop of processMessage: h gives each attempt's outcome
(true is success), the Nat argument counts remaining iterations, lastOk
carries whether lastErr is nil so far (nil when the loop never ran).
Returns the handler-call effects and whether lastErr ended nil. -/
def retryLoopGo (h : Nat → Bool) : Nat → Nat → Bool → List MsgEffect × Bool
  | 0, _, lastOk => ([], lastOk)
  | n + 1, attempt, _ =>
    if h attempt then ([.handlerCall], true)
    else
      let r := retryLoopGo h n (attempt + 1) false
      (.handlerCall :: r.1, r.2)

/-- Embedding of Consumer.processMessage: parse failure goes to the DLQ
and commits; otherwise the handler runs with up to maxRetries attempts,
exhaustion goes to the DLQ, and the offset is committed in every path. -/
def processMessage (parsedOk : Bool) (h : Nat → Bool)
    (maxRetries : Nat) : List MsgEffect :=
  if !parsedOk then [.dlqPublish, .commitOffset]
  else
    let r := retryLoopGo h maxRetries 0 true
    r.1 ++ (if r.2 then [] else [.dlqPublish]) ++ [.commitOffset]

theorem retryLoopGo_effects (h : Nat → Bool) :
    ∀ (n a : Nat) (b : Bool) e, e ∈ (retryLoopGo h n a b).1 →
      e = MsgEffect.handlerCall := by
  intro n
  induction n with
  | zero =>
    intro a b e he
    simp [retryLoopGo] at he
  | succ m ih =>
    intro a b e he
    simp only [retryLoopGo] at he
    by_cases hh : h a = true
    · rw [if_pos hh] at he
      simpa using he
    · rw [if_neg hh] at he
      dsimp only at he
      rcases List.mem_cons.mp he with he | he
      · exact he
      · exact ih _ _ e he

theorem retryLoopGo_ok (h : Nat → Bool) :
    ∀ (n a : Nat) (b : Bool),
      (retryLoopGo h n a b).2 = true ↔
        (n = 0 ∧ b = true) ∨ ∃ i, i < n ∧ h (a + i) = true := by
  intro n
  induction n with
  | zero =>
    intro a b
    simp [retryLoopGo]
  | succ m ih =>
    intro a b
    simp only [retryLoopGo]
    by_cases hh : h a = true
    · rw [if_pos hh]
      constructor
      · intro _
        exact Or.inr ⟨0, Nat.succ_pos m, by simpa using hh⟩
      · intro _
        rfl
    · rw [if_neg hh]
      dsimp only
      rw [ih (a + 1) false]
      constructor
      · intro hcase
        rcases hcase with ⟨hm, hfalse⟩ | ⟨i, hi, hhi⟩
        · cases hfalse
        · refine Or.inr ⟨i + 1, by omega, ?_⟩
          have : a + 1 + i = a + (i + 1) := by omega
          rw [← this]
          exact hhi
      · intro hcase
        rcases hcase with ⟨hm, _⟩ | ⟨i, hi, hhi⟩
        · cases hm
        · cases i with
          | zero =>
            exact absurd (by simpa using hhi) hh
          | succ j =>
            refine Or.inr ⟨j, by omega, ?_⟩
            have : a + 1 + j = a + (j + 1) := by omega
            rw [this]
            exact hhi

theorem commit_not_mem_retryLoop (h : Nat → Bool) (n a : Nat) (b : Bool) :
    MsgEffect.commitOffset ∉ (retryLoopGo h n a b).1 := by
  intro hmem
  cases retryLoopGo_effects h n a b _ hmem

theorem dlq_not_mem_retryLoop (h : Nat → Bool) (n a : Nat) (b : Bool) :
    MsgEffect.dlqPublish ∉ (retryLoopGo h n a b).1 := by
  intro hmem
  cases retryLoopGo_effects h n a b _ hmem

/-- Claim C4: for every fetched message, processMessage commits the
offset exactly once and the commit is the last effect, after the outcome
is decided; a DLQ publish happens at most once, and exactly for an
unparseable payload or for a handler that failed all maxRetries attempts
(with at least one attempt configured). -/
theorem processMessage_commits_exactly_once (parsedOk : Bool)
    (h : Nat → Bool) (maxRetries : Nat) :
    (processMessage parsedOk h maxRetries).count .commitOffset = 1 ∧
    (processMessage parsedOk h maxRetries).getLast? =
      some .commitOffset ∧
    (processMessage parsedOk h maxRetries).count .dlqPublish ≤ 1 ∧
    (MsgEffect.dlqPublish ∈ processMessage parsedOk h maxRetries ↔
      parsedOk = false ∨
        (parsedOk = true ∧ 1 ≤ maxRetries ∧
          ∀ i, i < maxRetries → h i = false)) := by
  cases parsedOk with
  | false =>
    refine ⟨rfl, rfl, ?_, ?_⟩
    · simp [processMessage]
    · simp [processMessage]
  | true =>
    set r := retryLoopGo h maxRetries 0 true with hr
    have hproc : processMessage true h maxRetries =
        (r.1 ++ (if r.2 = true then [] else [MsgEffect.dlqPublish])) ++
          [MsgEffect.commitOffset] := rfl
    have hr2 : r.2 = true ↔
        maxRetries = 0 ∨ ∃ i, i < maxRetries ∧ h i = true := by
      rw [hr, retryLoopGo_ok]
      constructor
      · rintro (⟨h0, _⟩ | ⟨i, hi, hhi⟩)
        · exact Or.inl h0
        · exact Or.inr ⟨i, hi, by simpa using hhi⟩
      · rintro (h0 | ⟨i, hi, hhi⟩)
        · exact Or.inl ⟨h0, rfl⟩
        · exact Or.inr ⟨i, hi, by simpa using hhi⟩
    refine ⟨?_, ?_, ?_, ?_⟩
    · rw [hproc, List.count_append, List.count_append]
      rw [List.count_eq_zero_of_not_mem (commit_not_mem_retryLoop h _ _ _)]
      have hmid : (if r.2 = true then ([] : List MsgEffect)
          else [MsgEffect.dlqPublish]).count .commitOffset = 0 := by
        split <;> rfl
      rw [hmid]
      rfl
    · rw [hproc]
      exact List.getLast?_concat _
    · rw [hproc, List.count_append, List.count_append]
      rw [List.count_eq_zero_of_not_mem (dlq_not_mem_retryLoop h _ _ _)]
      have hmid : (if r.2 = true then ([] : List MsgEffect)
          else [MsgEffect.dlqPublish]).count .dlqPublish ≤ 1 := by
        split
        · decide
        · decide
      have hlast :
          ([MsgEffect.commitOffset] : List MsgEffect).count .dlqPublish = 0 :=
        rfl
      rw [hlast]
      omega
    · rw [hproc]
      have hmem : MsgEffect.dlqPublish ∈
          (r.1 ++ (if r.2 = true then [] else [MsgEffect.dlqPublish])) ++
            [MsgEffect.commitOffset] ↔ r.2 = false := by
        rw [List.mem_append, List.mem_append]
        constructor
        · rintro ((hin | hin) | hin)
          · exact absurd hin (dlq_not_mem_retryLoop h _ _ _)
          · revert hin
            split
            · intro hin
              simp at hin
            · rename_i hf
              intro _
              simpa using hf
          · simp at hin
        · intro hf
          refine Or.inl (Or.inr ?_)
          rw [if_neg (by simp [hf])]
          exact List.mem_singleton.mpr rfl
      rw [hmem]
      constructor
      · intro hf
        refine Or.inr ⟨rfl, ?_, ?_⟩
        · by_contra hlt
          have h0 : maxRetries = 0 := by omega
          have : r.2 = true := hr2.mpr (Or.inl h0)
          rw [this] at hf
          cases hf
        · intro i hi
          by_contra hne
          have hhi : h i = true := by
            cases hval : h i
            · exact absurd hval hne
            · rfl
          have : r.2 = true := hr2.mpr (Or.inr ⟨i, hi, hhi⟩)
          rw [this] at hf
          cases hf
      · rintro (hfalse | ⟨_, hpos, hall⟩)
        · cases hfalse
        · cases hval : r.2
          · rfl
          · exfalso
            rcases hr2.mp hval with h0 | ⟨i, hi, hhi⟩
            · omega
            · rw [hall i hi] at hhi
              cases hhi

end Kafka

namespace Resilience

/-- Result kind of a Retry run: success, a wrapped cancellation, or a
wrapped last error annotated with the configured attempt count. -/
inductive RetryOutcome
  | success
  | cancelled
  | exhausted (attempts : Nat) (lastErr : String)
  deriving DecidableEq, Repr

/-- Observable run of Retry: how many times fn was invoked, the sequence
of completed sleeps, and the returned outcome. -/
structure RetryResult where
  calls : Nat
  sleeps : List Int
  outcome : RetryOutcome
  deriving DecidableEq, Repr

/-- RetryConfig of resilience, waits as integer durations and the
multiplier as an exact rational (the Go float64 arithmetic coincides with
exact arithmetic for the wait magnitudes the configuration admits). -/
structure RetryConfig where
  maxAttempts : Nat
  initialWait : Int
  maxWait : Int
  multiplier : Rat
  deriving DecidableEq, Repr

/-- Truncation toward zero, the Go conversion from float64 back to a
time.Duration. -/
def ratTrunc (q : Rat) : Int := q.num / (q.den : Int)

/-- The wait update after a sleep: multiply, truncate, cap at maxWait. -/
def nextWait (cfg : RetryConfig) (wait : Int) : Int :=
  min (ratTrunc ((wait : Rat) * cfg.multiplier)) cfg.maxWait

/-- The loop of Retry: the first argument is the number of remaining
iterations, attempt the Go loop counter, wait the current backoff, lastE
the last recorded error.  f gives each call's outcome (none is success)
and cancel whether the context is done during the wait after the given
attempt, preempting that sleep. -/
def retryGo (cfg : RetryConfig) (f : Nat → Option String)
    (cancel : Nat → Bool) : Nat → Nat → Int → String → RetryResult
  | 0, attempt, _, lastE => ⟨attempt, [], .exhausted cfg.maxAttempts lastE⟩
  | n + 1, attempt, wait, _ =>
    match f attempt with
    | none => ⟨attempt + 1, [], .success⟩
    | some e =>
      if n = 0 then ⟨attempt + 1, [], .exhausted cfg.maxAttempts e⟩
      else if cancel attempt then ⟨attempt + 1, [], .cancelled⟩
      else
        let r := retryGo cfg f cancel n (attempt + 1) (nextWait cfg wait) e
        ⟨r.calls, wait :: r.sleeps, r.outcome⟩

/-- Embedding of Retry of circuitbreaker.go (the cancellation-aware
variant the claim cites). -/
def Retry (cfg : RetryConfig) (f : Nat → Option String)
    (cancel : Nat → Bool) : RetryResult :=
  retryGo cfg f cancel cfg.maxAttempts 0 cfg.initialWait ""

/-- One-step unfolding of the loop at a positive remaining count. -/
theorem retryGo_succ (cfg : RetryConfig) (f : Nat → Option String)
    (cancel : Nat → Bool) (n attempt : Nat) (wait : Int) (lastE : String) :
    retryGo cfg f cancel (n + 1) attempt wait lastE =
      match f attempt with
      | none => ⟨attempt + 1, [], .success⟩
      | some e =>
        if n = 0 then ⟨attempt + 1, [], .exhausted cfg.maxAttempts e⟩
        else if cancel attempt then ⟨attempt + 1, [], .cancelled⟩
        else
          let r := retryGo cfg f cancel n (attempt + 1) (nextWait cfg wait) e
          ⟨r.calls, wait :: r.sleeps, r.outcome⟩ := rfl

/-- Wait sequence the specification describes: start at the given wait
and after each sleep set wait to min of wait times multiplier and
maxWait. -/
def specWaits (cfg : RetryConfig) : Nat → Int → List Int
  | 0, _ => []
  | n + 1, w => w :: specWaits cfg n (nextWait cfg w)

theorem retryGo_all_fail (cfg : RetryConfig) (f : Nat → Option String)
    (cancel : Nat → Bool) (hf : ∀ i, f i ≠ none)
    (hc : ∀ i, cancel i = false) :
    ∀ (n attempt : Nat) (wait : Int) (lastE : String), 1 ≤ n →
      retryGo cfg f cancel n attempt wait lastE =
        ⟨attempt + n, specWaits cfg (n - 1) wait,
         .exhausted cfg.maxAttempts ((f (attempt + n - 1)).getD "")⟩ := by
  intro n
  induction n with
  | zero =>
    intro attempt wait lastE h1
    omega
  | succ m ih =>
    intro attempt wait lastE _
    cases m with
    | zero =>
      cases hfa : f attempt with
      | none => exact absurd hfa (hf attempt)
      | some e =>
        rw [retryGo_succ]
        simp only [hfa, if_pos rfl]
        have h1 : attempt + 1 - 1 = attempt := by omega
        rw [h1, hfa]
        rfl
    | succ k =>
      cases hfa : f attempt with
      | none => exact absurd hfa (hf attempt)
      | some e =>
        rw [retryGo_succ]
        simp only [hfa]
        rw [if_neg (by omega), if_neg (by rw [hc attempt]; simp)]
        rw [ih (attempt + 1) (nextWait cfg wait) e (by omega)]
        have h1 : attempt + 1 + (k + 1) = attempt + (k + 1 + 1) := by omega
        rw [h1]
        rfl

theorem retryGo_cancel (cfg : RetryConfig) (f : Nat → Option String)
    (cancel : Nat → Bool) :
    ∀ (k n attempt : Nat) (wait : Int) (lastE : String),
      k + 1 < n →
      (∀ i, i ≤ k → f (attempt + i) ≠ none) →
      (∀ j, j < k → cancel (attempt + j) = false) →
      cancel (attempt + k) = true →
      retryGo cfg f cancel n attempt wait lastE =
        ⟨attempt + k + 1, specWaits cfg k wait, .cancelled⟩ := by
  intro k
  induction k with
  | zero =>
    intro n attempt wait lastE hn hfail _ hcanc
    obtain ⟨m, rfl⟩ : ∃ m, n = m + 1 := ⟨n - 1, by omega⟩
    cases hfa : f attempt with
    | none => exact absurd hfa (hfail 0 (by omega))
    | some e =>
      rw [retryGo_succ]
      simp only [hfa]
      rw [if_neg (by omega)]
      rw [if_pos (by simpa using hcanc)]
      rfl
  | succ j ih =>
    intro n attempt wait lastE hn hfail hrun hcanc
    obtain ⟨m, rfl⟩ : ∃ m, n = m + 1 := ⟨n - 1, by omega⟩
    cases hfa : f attempt with
    | none => exact absurd hfa (hfail 0 (by omega))
    | some e =>
      have hc0 : cancel attempt = false := by
        have := hrun 0 (by omega)
        simpa using this
      rw [retryGo_succ]
      simp only [hfa]
      rw [if_neg (by omega)]
      rw [if_neg (by simp [hc0])]
      rw [ih m (attempt + 1) (nextWait cfg wait) e (by omega)
        (fun i hi => by
          have hidx : attempt + 1 + i = attempt + (i + 1) := by omega
          rw [hidx]
          exact hfail (i + 1) (by omega))
        (fun i hi => by
          have hidx : attempt + 1 + i = attempt + (i + 1) := by omega
          rw [hidx]
          exact hrun (i + 1) (by omega))
        (by
          have hidx : attempt + 1 + j = attempt + (j + 1) := by omega
          rw [hidx]
          exact hcanc)]
      have hcalls : attempt + 1 + j + 1 = attempt + (j + 1) + 1 := by omega
      rw [hcalls]
      rfl

/-- Claim C7: with maxAttempts at least one, Retry calls fn exactly
maxAttempts times and returns the wrapped last error annotated with the
attempt count when fn always fails and no cancellation occurs, having
slept the spec backoff sequence (each sleep the current wait, then wait
set to min of wait times multiplier and maxWait); it calls fn exactly
once, with no sleeps, when fn succeeds first; and a cancellation between
attempts preempts the remaining sleep and returns the cancellation
outcome after k+1 calls and k completed sleeps. -/
theorem retry_counts_and_backoff (cfg : RetryConfig)
    (f : Nat → Option String) (cancel : Nat → Bool)
    (hmax : 1 ≤ cfg.maxAttempts) :
    ((∀ i, f i ≠ none) → (∀ i, cancel i = false) →
      Retry cfg f cancel =
        ⟨cfg.maxAttempts, specWaits cfg (cfg.maxAttempts - 1) cfg.initialWait,
         .exhausted cfg.maxAttempts ((f (cfg.maxAttempts - 1)).getD "")⟩) ∧
    (f 0 = none → Retry cfg f cancel = ⟨1, [], .success⟩) ∧
    (∀ k, k + 1 < cfg.maxAttempts →
      (∀ i, i ≤ k → f i ≠ none) →
      (∀ j, j < k → cancel j = false) →
      cancel k = true →
      Retry cfg f cancel =
        ⟨k + 1, specWaits cfg k cfg.initialWait, .cancelled⟩) := by
  refine ⟨?_, ?_, ?_⟩
  · intro hf hc
    unfold Retry
    rw [retryGo_all_fail cfg f cancel hf hc cfg.maxAttempts 0
      cfg.initialWait "" hmax]
    simp
  · intro hf0
    unfold Retry
    obtain ⟨m, hm⟩ : ∃ m, cfg.maxAttempts = m + 1 :=
      ⟨cfg.maxAttempts - 1, by omega⟩
    rw [hm]
    simp only [retryGo, hf0]
  · intro k hk hfail hrun hcanc
    unfold Retry
    rw [retryGo_cancel cfg f cancel k cfg.maxAttempts 0 cfg.initialWait ""
      hk (fun i hi => by simpa using hfail i hi)
      (fun j hj => by simpa using hrun j hj) (by simpa using hcanc)]
    simp

/-- Witness for retry_counts_and_backoff: three attempts, initial wait
50, maximum 500, multiplier 2, fn succeeding on the first call, no
cancellation: one call, no sleeps, success. -/
theorem retry_counts_and_backoff_witness :
    Retry ⟨3, 50, 500, 2⟩ (fun _ => none) (fun _ => false) =
      ⟨1, [], .success⟩ :=
  (retry_counts_and_backoff ⟨3, 50, 500, 2⟩ (fun _ => none)
    (fun _ => false) (by decide)).2.1 rfl

end Resilience

namespace Observability

/-- Embedding of classifySeverity of the slow-query detector, durations
as integers. -/
def classifySeverity (warn crit d : Int) : String :=
  if d > crit then "critical"
  else if d > warn then "warning"
  else "normal"

/-- Observable effects of one Intercept call: the severity label of the
counter increment when one happens, the structured log line, and the
dispatch of the asynchronous analytics write (performed only when an
analytics writer is wired). -/
structure InterceptEffects where
  counterLabel : Option String
  logLine : Bool
  analyticsWrite : Bool
  deriving DecidableEq, Repr

/-- Embedding of Intercept, the fast-path variant the spec mandates: a
duration at or below the warning threshold returns before any effect. -/
def Intercept (warn crit : Int) (hasWriter : Bool) (d : Int) :
    InterceptEffects :=
  if d ≤ warn then ⟨none, false, false⟩
  else ⟨some (classifySeverity warn crit d), true, hasWriter⟩

/-- Claim C8: a duration at or below the warning threshold (the
boundary included) produces no counter, no log line and no analytics
write, and classifies as normal; only a duration strictly above the
warning threshold produces the counter, the log line, and the analytics
dispatch (when a writer is configured). -/
theorem slow_query_fast_path (warn crit d : Int) (hw : Bool)
    (hwc : warn ≤ crit) :
    (d ≤ warn →
      Intercept warn crit hw d = ⟨none, false, false⟩ ∧
      classifySeverity warn crit d = "normal") ∧
    (warn < d →
      (Intercept warn crit hw d).counterLabel =
        some (classifySeverity warn crit d) ∧
      (Intercept warn crit hw d).logLine = true ∧
      (Intercept warn crit hw d).analyticsWrite = hw) := by
  constructor
  · intro hd
    constructor
    · unfold Intercept
      rw [if_pos hd]
    · unfold classifySeverity
      rw [if_neg (by omega), if_neg (by omega)]
  · intro hd
    unfold Intercept
    rw [if_neg (by omega)]
    exact ⟨rfl, rfl, rfl⟩

/-- Witness for slow_query_fast_path at the exact boundary: warning 200,
critical 500, duration 200. -/
theorem slow_query_fast_path_witness :
    Intercept 200 500 true 200 = ⟨none, false, false⟩ ∧
      classifySeverity 200 500 200 = "normal" :=
  (slow_query_fast_path 200 500 200 true (by decide)).1 (by decide)

end Observability
